import Mathlib

/-!
Verification of the NotebookAI backend services (embedding service, RAG
service, configuration) against their natural-language specification.

Python strings are modelled as `List Char`; Python dictionaries as
association lists; the external Google AI and Supabase calls as explicit
oracle parameters; exceptions as `Except String`.
-/

namespace NotebookAI

/-- Python `str` modelled at the character level. -/
abbrev PyStr := List Char

/-! ## Configuration (app/core/config.py)

Only the fields the verified services read are carried. -/

structure Settings where
  chunk_size : Nat := 512
  chunk_overlap : Nat := 50
deriving Repr, DecidableEq

/-- The shipped configuration defaults (`Settings()` with no env overrides). -/
def defaultSettings : Settings := {}

/-! ## Python string primitives used by the services -/

/-- Helper for `pySplit`: walks the characters, accumulating the current
word (reversed) in `acc`; whitespace flushes the word. This is the
semantics of Python `str.split()` with no argument. -/
def splitWsAux : List Char → List Char → List PyStr
  | [], acc => if acc = [] then [] else [acc.reverse]
  | c :: cs, acc =>
    if c.isWhitespace then
      if acc = [] then splitWsAux cs [] else acc.reverse :: splitWsAux cs []
    else
      splitWsAux cs (c :: acc)

/-- Python `content.split()`: split on runs of whitespace, dropping empties. -/
def pySplit (s : PyStr) : List PyStr := splitWsAux s []

/-- Python `s.strip()`: drop whitespace from both ends. -/
def pyStrip (s : PyStr) : PyStr :=
  ((s.dropWhile Char.isWhitespace).reverse.dropWhile Char.isWhitespace).reverse

/-- Python `' '.join(words)`. -/
def joinWords : List PyStr → PyStr
  | [] => []
  | [w] => w
  | w :: ws => w ++ ' ' :: joinWords ws

/-! ## Python `range(0, stop, step)` -/

/-- Fuel-indexed helper for `rangeFrom`; `stop - i` bounds the iteration
count when the step is positive, so the fuel never runs out. -/
def rangeFromAux (step : Nat) : Nat → Nat → Nat → List Nat
  | 0, _, _ => []
  | fuel + 1, i, stop => if i < stop then i :: rangeFromAux step fuel (i + step) stop else []

/-- Indices `i, i+step, ...` strictly below `stop`, for a positive `step`. -/
def rangeFrom (i stop step : Nat) : List Nat :=
  if 0 < step then rangeFromAux step (stop - i) i stop else []

/-- Python `range(0, stop, step)` for an integer `step`: a zero step raises
`ValueError`; a negative step (with `stop ≥ 0`) yields the empty range. -/
def pyRange (stop : Nat) (step : Int) : Except String (List Nat) :=
  if step = 0 then .error "range() arg 3 must not be zero"
  else if step < 0 then .ok []
  else .ok (rangeFrom 0 stop step.toNat)

/-! ## EmbeddingService._split_into_chunks -/

/-- `EmbeddingService._split_into_chunks`: word-based chunking.
`for i in range(0, len(words), chunk_size - overlap): chunk = ' '.join(words[i:i+chunk_size]); if chunk.strip(): chunks.append(chunk)`. -/
def split_into_chunks (st : Settings) (content : PyStr) : Except String (List PyStr) :=
  let words := pySplit content
  match pyRange words.length ((st.chunk_size : Int) - (st.chunk_overlap : Int)) with
  | .error e => .error e
  | .ok idxs =>
      .ok ((idxs.map fun i => joinWords ((words.drop i).take st.chunk_size)).filter
        fun chunk => pyStrip chunk ≠ [])

/-! ## Lemmas about the string primitives -/

/-- A word as produced by `pySplit`: non-empty and free of whitespace. -/
def goodWord (w : PyStr) : Prop := w ≠ [] ∧ ∀ c ∈ w, ¬c.isWhitespace

theorem splitWsAux_good (cs : List Char) :
    ∀ acc : List Char, (∀ c ∈ acc, ¬c.isWhitespace) →
      ∀ w ∈ splitWsAux cs acc, goodWord w := by
  induction cs with
  | nil =>
    intro acc hacc w hw
    simp only [splitWsAux] at hw
    split at hw
    · simp at hw
    · next hne =>
      simp only [List.mem_singleton] at hw
      subst hw
      refine ⟨by simpa using hne, ?_⟩
      intro c hc
      exact hacc c (List.mem_reverse.mp hc)
  | cons c cs ih =>
    intro acc hacc w hw
    simp only [splitWsAux] at hw
    by_cases hws : c.isWhitespace
    · simp only [hws, if_true] at hw
      by_cases hacc0 : acc = []
      · simp only [hacc0, if_true] at hw
        exact ih [] (by simp) w hw
      · simp only [hacc0, if_false] at hw
        rcases List.mem_cons.mp hw with h | h
        · subst h
          refine ⟨by simpa using hacc0, ?_⟩
          intro x hx
          exact hacc x (List.mem_reverse.mp hx)
        · exact ih [] (by simp) w h
    · simp only [hws, if_false] at hw
      refine ih (c :: acc) ?_ w hw
      intro x hx
      rcases List.mem_cons.mp hx with h | h
      · subst h; exact hws
      · exact hacc x h

theorem pySplit_good (s : PyStr) : ∀ w ∈ pySplit s, goodWord w :=
  splitWsAux_good s [] (by simp)

theorem pyStrip_ne_nil {s : PyStr} (h : ∃ c ∈ s, ¬c.isWhitespace) :
    pyStrip s ≠ [] := by
  obtain ⟨c, hc, hcw⟩ := h
  intro hnil
  unfold pyStrip at hnil
  rw [List.reverse_eq_nil_iff, List.dropWhile_eq_nil_iff] at hnil
  have hcdrop : c ∈ s.dropWhile Char.isWhitespace := by
    rcases List.mem_append.mp
        (by rw [List.takeWhile_append_dropWhile]; exact hc :
          c ∈ s.takeWhile Char.isWhitespace ++ s.dropWhile Char.isWhitespace) with h' | h'
    · exact absurd (List.mem_takeWhile_imp h') hcw
    · exact h'
  exact hcw (hnil c (List.mem_reverse.mpr hcdrop))

theorem joinWords_cons (w : PyStr) (ws : List PyStr) :
    ∃ t, joinWords (w :: ws) = w ++ t := by
  cases ws with
  | nil => exact ⟨[], by simp [joinWords]⟩
  | cons w' ws' => exact ⟨' ' :: joinWords (w' :: ws'), rfl⟩

/-- Joining a non-empty list of good words yields a string that `strip`s
to something non-empty (the `if chunk.strip():` test passes). -/
theorem pyStrip_joinWords_ne_nil {ws : List PyStr} (hne : ws ≠ [])
    (hgood : ∀ w ∈ ws, goodWord w) : pyStrip (joinWords ws) ≠ [] := by
  cases ws with
  | nil => exact absurd rfl hne
  | cons w ws' =>
    obtain ⟨t, ht⟩ := joinWords_cons w ws'
    obtain ⟨hwne, hwchars⟩ := hgood w (List.mem_cons_self w ws')
    cases w with
    | nil => exact absurd rfl hwne
    | cons c w' =>
      apply pyStrip_ne_nil
      refine ⟨c, ?_, hwchars c (List.mem_cons_self c w')⟩
      rw [ht]
      exact List.mem_append_left _ (List.mem_cons_self c w')

/-! ## Lemmas about `rangeFrom` -/

theorem rangeFromAux_eq (step : Nat) (hs : 0 < step) :
    ∀ d i stop, stop - i ≤ d →
      rangeFromAux step d i stop
        = (List.range (((stop - i) + step - 1) / step)).map (fun j => i + j * step) := by
  intro d
  induction d with
  | zero =>
    intro i stop hle
    have hzero : stop - i = 0 := by omega
    rw [rangeFromAux, hzero]
    have : (0 + step - 1) / step = 0 := Nat.div_eq_of_lt (by omega)
    rw [this]
    simp
  | succ d ih =>
    intro i stop hle
    by_cases hi : i < stop
    · rw [rangeFromAux]
      rw [if_pos hi]
      have hrec : stop - (i + step) ≤ d := by omega
      rw [ih (i + step) stop hrec]
      have hm : 0 < stop - i := by omega
      have hcount : ((stop - i) + step - 1) / step
          = ((stop - (i + step)) + step - 1) / step + 1 := by
        have h1 : (stop - i) + step - 1 = (stop - i - 1) + step := by omega
        rw [h1, Nat.add_div_right _ hs]
        by_cases hbig : step ≤ stop - i
        · have h2 : (stop - (i + step)) + step - 1 = stop - i - 1 := by omega
          rw [h2]
        · have h2 : stop - (i + step) = 0 := by omega
          rw [h2]
          have h3 : (0 + step - 1) / step = 0 := Nat.div_eq_of_lt (by omega)
          have h4 : (stop - i - 1) / step = 0 := Nat.div_eq_of_lt (by omega)
          rw [h3, h4]
      rw [hcount, List.range_succ_eq_map]
      simp only [List.map_cons, List.map_map]
      congr 1
      · omega
      · apply List.map_congr_left
        intro j _
        simp only [Function.comp_apply, Nat.succ_eq_add_one, Nat.add_mul, Nat.one_mul]
        ring
    · rw [rangeFromAux]
      rw [if_neg hi]
      have hzero : stop - i = 0 := by omega
      rw [hzero]
      have : (0 + step - 1) / step = 0 := Nat.div_eq_of_lt (by omega)
      rw [this]
      simp

theorem rangeFrom_eq (i stop step : Nat) (hs : 0 < step) :
    rangeFrom i stop step
      = (List.range (((stop - i) + step - 1) / step)).map (fun j => i + j * step) := by
  rw [rangeFrom, if_pos hs]
  exact rangeFromAux_eq step hs (stop - i) i stop le_rfl

theorem rangeFrom_length (stop step : Nat) (hs : 0 < step) :
    (rangeFrom 0 stop step).length = (stop + step - 1) / step := by
  rw [rangeFrom_eq 0 stop step hs]
  simp

theorem mem_rangeFrom_lt {x i stop step : Nat} (hx : x ∈ rangeFrom i stop step) :
    x < stop := by
  by_cases hs : 0 < step
  · rw [rangeFrom_eq i stop step hs] at hx
    obtain ⟨j, hj, hjx⟩ := List.mem_map.mp hx
    rw [List.mem_range] at hj
    subst hjx
    have h2 : (j + 1) * step ≤ ((stop - i) + step - 1) / step * step :=
      Nat.mul_le_mul_right _ hj
    have h3 : ((stop - i) + step - 1) / step * step ≤ (stop - i) + step - 1 :=
      Nat.div_mul_le_self _ _
    have h4 : (j + 1) * step = j * step + step := by
      rw [Nat.add_mul, Nat.one_mul]
    omega
  · rw [rangeFrom, if_neg hs] at hx
    exact absurd hx (List.not_mem_nil x)

/-! ## `pySplit` is a left inverse of `joinWords` on good words -/

theorem splitWsAux_append_nonws {w : List Char} (hw : ∀ c ∈ w, ¬c.isWhitespace) :
    ∀ cs acc, splitWsAux (w ++ cs) acc = splitWsAux cs (w.reverse ++ acc) := by
  induction w with
  | nil => intro cs acc; simp
  | cons c w' ih =>
    intro cs acc
    have hc : ¬c.isWhitespace := hw c (List.mem_cons_self c w')
    have hw' : ∀ x ∈ w', ¬x.isWhitespace := fun x hx => hw x (List.mem_cons_of_mem c hx)
    simp only [List.cons_append, splitWsAux]
    rw [if_neg hc]
    have := ih hw' cs (c :: acc)
    simp only [List.append_eq] at this ⊢
    rw [this]
    simp

theorem pySplit_joinWords : ∀ ws : List PyStr, (∀ w ∈ ws, goodWord w) →
    pySplit (joinWords ws) = ws := by
  intro ws
  induction ws with
  | nil => intro _; rfl
  | cons w tail ih =>
    intro hgood
    obtain ⟨hwne, hwchars⟩ := hgood w (List.mem_cons_self w tail)
    have htail : ∀ x ∈ tail, goodWord x := fun x hx => hgood x (List.mem_cons_of_mem w hx)
    cases tail with
    | nil =>
      show splitWsAux (joinWords [w]) [] = [w]
      have : joinWords [w] = w ++ [] := by simp [joinWords]
      rw [this, splitWsAux_append_nonws hwchars [] []]
      simp only [splitWsAux, List.append_nil]
      rw [if_neg (by simpa using hwne)]
      simp
    | cons w' tail' =>
      show splitWsAux (joinWords (w :: w' :: tail')) [] = w :: w' :: tail'
      have hjw : joinWords (w :: w' :: tail') = w ++ ' ' :: joinWords (w' :: tail') := rfl
      rw [hjw, splitWsAux_append_nonws hwchars _ []]
      simp only [List.append_nil, splitWsAux]
      rw [if_pos (by decide : (' ' : Char).isWhitespace = true),
        if_neg (by simpa using hwne)]
      simp only [List.reverse_reverse]
      congr 1
      exact ih htail

/-! ## Characterization of the chunker for `overlap < chunk_size` -/

/-- The words of chunk number `j`: `words[j*step : j*step + chunk_size]`. -/
def chunkSlice (st : Settings) (words : List PyStr) (i : Nat) : List PyStr :=
  (words.drop i).take st.chunk_size

theorem chunkSlice_good {st : Settings} {words : List PyStr}
    (hgood : ∀ w ∈ words, goodWord w) (i : Nat) :
    ∀ w ∈ chunkSlice st words i, goodWord w := by
  intro w hw
  exact hgood w (List.drop_subset i words (List.take_subset _ _ hw))

theorem chunkSlice_ne_nil {st : Settings} {words : List PyStr} {i : Nat}
    (hc : 0 < st.chunk_size) (hi : i < words.length) :
    chunkSlice st words i ≠ [] := by
  unfold chunkSlice
  intro hnil
  have := congrArg List.length hnil
  simp only [List.length_take, List.length_drop, List.length_nil] at this
  omega

theorem split_into_chunks_eq (st : Settings) (content : PyStr)
    (h : st.chunk_overlap < st.chunk_size) :
    split_into_chunks st content
      = .ok ((rangeFrom 0 (pySplit content).length (st.chunk_size - st.chunk_overlap)).map
          fun i => joinWords (chunkSlice st (pySplit content) i)) := by
  have hstep : ((st.chunk_size : Int) - (st.chunk_overlap : Int)) = ((st.chunk_size - st.chunk_overlap : Nat) : Int) := by
    omega
  have hrange : pyRange (pySplit content).length ((st.chunk_size : Int) - (st.chunk_overlap : Int))
      = .ok (rangeFrom 0 (pySplit content).length (st.chunk_size - st.chunk_overlap)) := by
    unfold pyRange
    rw [hstep, if_neg (by omega), if_neg (by omega)]
    simp
  simp only [split_into_chunks, hrange]
  congr 1
  simp only [chunkSlice]
  rw [List.filter_eq_self]
  intro chunk hchunk
  obtain ⟨i, hi, hichunk⟩ := List.mem_map.mp hchunk
  subst hichunk
  have hilt : i < (pySplit content).length := mem_rangeFrom_lt hi
  simp only [decide_eq_true_eq]
  exact pyStrip_joinWords_ne_nil
    (chunkSlice_ne_nil (by omega) hilt)
    (chunkSlice_good (pySplit_good content) i)

theorem splitWsAux_ne_nil {cs : List Char} : ∀ acc, acc ≠ [] → splitWsAux cs acc ≠ [] := by
  induction cs with
  | nil =>
    intro acc hacc
    simp only [splitWsAux]
    rw [if_neg hacc]
    simp
  | cons c cs ih =>
    intro acc hacc
    simp only [splitWsAux]
    by_cases hws : c.isWhitespace
    · rw [if_pos hws, if_neg hacc]
      simp
    · rw [if_neg hws]
      exact ih (c :: acc) (List.cons_ne_nil c acc)

theorem pySplit_ne_nil {s : PyStr} (h : ∃ c ∈ s, ¬c.isWhitespace) :
    pySplit s ≠ [] := by
  obtain ⟨c, hc, hcw⟩ := h
  induction s with
  | nil => exact absurd hc (List.not_mem_nil c)
  | cons x xs ih =>
    show splitWsAux (x :: xs) [] ≠ []
    by_cases hws : x.isWhitespace
    · rcases List.mem_cons.mp hc with rfl | hc'
      · exact absurd hws hcw
      · simpa [splitWsAux, hws] using ih hc'
    · simp only [splitWsAux]
      rw [if_neg hws]
      exact splitWsAux_ne_nil [x] (List.cons_ne_nil x [])

theorem split_into_chunks_length (st : Settings) (content : PyStr)
    (h : st.chunk_overlap < st.chunk_size) {chunks : List PyStr}
    (hch : split_into_chunks st content = .ok chunks) :
    chunks.length
      = ((pySplit content).length + (st.chunk_size - st.chunk_overlap) - 1)
          / (st.chunk_size - st.chunk_overlap) := by
  have he := split_into_chunks_eq st content h
  rw [hch] at he
  have : chunks
      = (rangeFrom 0 (pySplit content).length (st.chunk_size - st.chunk_overlap)).map
          fun i => joinWords (chunkSlice st (pySplit content) i) := by
    exact Except.ok.inj he
  rw [this, List.length_map, rangeFrom_length _ _ (by omega)]

theorem split_into_chunks_get (st : Settings) (content : PyStr)
    (h : st.chunk_overlap < st.chunk_size) {chunks : List PyStr}
    (hch : split_into_chunks st content = .ok chunks) (j : Nat)
    (hj : j < chunks.length) :
    chunks.get ⟨j, hj⟩
      = joinWords (chunkSlice st (pySplit content)
          (j * (st.chunk_size - st.chunk_overlap))) := by
  have he := split_into_chunks_eq st content h
  rw [hch] at he
  have hc : chunks
      = (rangeFrom 0 (pySplit content).length (st.chunk_size - st.chunk_overlap)).map
          fun i => joinWords (chunkSlice st (pySplit content) i) :=
    Except.ok.inj he
  subst hc
  simp only [List.get_eq_getElem, List.getElem_map,
    rangeFrom_eq _ _ _ (show 0 < st.chunk_size - st.chunk_overlap by omega),
    List.getElem_range, Nat.zero_add]

/-! ## Claim theorems about the chunker -/

/-- C3: for content of `N` whitespace-separated words and settings with
`overlap < chunk_size`, `_split_into_chunks` succeeds and emits exactly
`ceil (N / (chunk_size - overlap))` chunks; in particular on empty or
whitespace-only input it emits the empty sequence. -/
theorem chunk_count (st : Settings) (content : PyStr)
    (h : st.chunk_overlap < st.chunk_size) :
    ∃ chunks, split_into_chunks st content = .ok chunks ∧
      chunks.length
        = ((pySplit content).length + (st.chunk_size - st.chunk_overlap) - 1)
            / (st.chunk_size - st.chunk_overlap) ∧
      ((pySplit content).length = 0 → chunks = []) := by
  refine ⟨_, split_into_chunks_eq st content h, ?_, ?_⟩
  · rw [List.length_map, rangeFrom_length _ _ (by omega)]
  · intro h0
    rw [h0, rangeFrom, if_pos (by omega : 0 < st.chunk_size - st.chunk_overlap)]
    simp [rangeFromAux]

/-- Witness for `chunk_count`: settings `chunk_size = 3`, `overlap = 1` on a
five-word content give `ceil (5 / 2) = 3` chunks. -/
theorem chunk_count_witness :
    (⟨3, 1⟩ : Settings).chunk_overlap < (⟨3, 1⟩ : Settings).chunk_size ∧
    ∃ chunks, split_into_chunks ⟨3, 1⟩ ("a b c d e".data) = .ok chunks ∧
      chunks.length = 3 := by
  refine ⟨by decide, ?_⟩
  obtain ⟨chunks, h1, h2, _⟩ := chunk_count ⟨3, 1⟩ ("a b c d e".data) (by decide)
  exact ⟨chunks, h1, by rw [h2]; rfl⟩

/-- The last `n` whitespace-separated words of a chunk (observer for the
overlap property). -/
def lastWords (n : Nat) (s : PyStr) : List PyStr :=
  (pySplit s).drop ((pySplit s).length - n)

/-- The first `n` whitespace-separated words of a chunk (observer for the
overlap property). -/
def firstWords (n : Nat) (s : PyStr) : List PyStr := (pySplit s).take n

/-- C4 counterexample: with `chunk_size = 3`, `overlap = 2` the four-word
content `"a b c d"` yields chunks `"a b c"`, `"b c d"`, `"c d"`, `"d"`; the
consecutive pair at positions 2 and 3 is non-empty on both sides, yet the
last 2 words of `"c d"` are not the first 2 words of `"d"`. -/
theorem chunk_overlap_pair_cex :
    split_into_chunks ⟨3, 2⟩ ("a b c d".data)
      = .ok ["a b c".data, "b c d".data, "c d".data, "d".data] ∧
    ("c d".data ≠ []) ∧ ("d".data ≠ []) ∧
    lastWords 2 ("c d".data) ≠ firstWords 2 ("d".data) := by
  refine ⟨by rfl, by decide, by decide, by decide⟩

/-- Slice arithmetic behind the overlap identity: when the window at `a` is
full, its last `o` elements are the first `o` elements of the window one
step (`c - o`) further right. -/
theorem take_drop_overlap {α : Type} (l : List α) (a c o : Nat) (ho : o ≤ c)
    (hfull : a + c ≤ l.length) :
    ((l.drop a).take c).drop (((l.drop a).take c).length - o)
      = ((l.drop (a + (c - o))).take c).take o := by
  have hlen : ((l.drop a).take c).length = c := by
    rw [List.length_take, List.length_drop]
    omega
  rw [hlen, List.drop_take, List.drop_drop, List.take_take]
  have h1 : c - (c - o) = o := by omega
  have h3 : min o c = o := by omega
  rw [h1, h3]

/-- C4 amended: the overlap identity holds for every consecutive pair whose
first chunk carries the full `chunk_size` words (i.e. `k*(c-o) + c ≤ N`);
the trailing truncated chunks may share fewer words. -/
theorem chunk_overlap_consecutive (st : Settings) (content : PyStr) (k : Nat)
    (ho : 0 < st.chunk_overlap) (h : st.chunk_overlap < st.chunk_size)
    (hfull : k * (st.chunk_size - st.chunk_overlap) + st.chunk_size
        ≤ (pySplit content).length) :
    ∃ chunks, split_into_chunks st content = .ok chunks ∧
      ∃ hk1 : k + 1 < chunks.length,
        lastWords st.chunk_overlap (chunks.get ⟨k, by omega⟩)
          = firstWords st.chunk_overlap (chunks.get ⟨k + 1, hk1⟩) := by
  obtain ⟨chunks, hch, -, -⟩ := chunk_count st content h
  have hs : 0 < st.chunk_size - st.chunk_overlap := by omega
  have hmul : (k + 1) * (st.chunk_size - st.chunk_overlap)
      = k * (st.chunk_size - st.chunk_overlap) + (st.chunk_size - st.chunk_overlap) := by
    ring
  have hlt : (k + 1) * (st.chunk_size - st.chunk_overlap) < (pySplit content).length := by
    omega
  have hlen := split_into_chunks_length st content h hch
  have hk1 : k + 1 < chunks.length := by
    rw [hlen]
    have h2 : (k + 2) * (st.chunk_size - st.chunk_overlap)
        = (k + 1) * (st.chunk_size - st.chunk_overlap)
            + (st.chunk_size - st.chunk_overlap) := by
      ring
    have h3 : k + 2 ≤ ((pySplit content).length + (st.chunk_size - st.chunk_overlap) - 1)
        / (st.chunk_size - st.chunk_overlap) := by
      rw [Nat.le_div_iff_mul_le hs]
      omega
    omega
  refine ⟨chunks, hch, hk1, ?_⟩
  rw [split_into_chunks_get st content h hch k (by omega),
    split_into_chunks_get st content h hch (k + 1) hk1]
  unfold lastWords firstWords
  rw [pySplit_joinWords _ (chunkSlice_good (pySplit_good content) _),
    pySplit_joinWords _ (chunkSlice_good (pySplit_good content) _)]
  unfold chunkSlice
  rw [hmul]
  exact take_drop_overlap (pySplit content) _ st.chunk_size st.chunk_overlap
    (by omega) (by omega)

/-- Witness for `chunk_overlap_consecutive`: with `chunk_size = 3`,
`overlap = 1`, five words and `k = 0`, chunk 0 is full and shares its last
word with the first word of chunk 1. -/
theorem chunk_overlap_consecutive_witness :
    0 < (⟨3, 1⟩ : Settings).chunk_overlap ∧
    (⟨3, 1⟩ : Settings).chunk_overlap < (⟨3, 1⟩ : Settings).chunk_size ∧
    0 * 2 + 3 ≤ (pySplit ("a b c d e".data)).length ∧
    ∃ chunks, split_into_chunks ⟨3, 1⟩ ("a b c d e".data) = .ok chunks ∧
      ∃ hk1 : 0 + 1 < chunks.length,
        lastWords 1 (chunks.get ⟨0, by omega⟩)
          = firstWords 1 (chunks.get ⟨0 + 1, hk1⟩) := by
  refine ⟨by decide, by decide, by decide, ?_⟩
  exact chunk_overlap_consecutive ⟨3, 1⟩ ("a b c d e".data) 0 (by decide) (by decide)
    (by decide)

/-- C10: the chunker is total only under `overlap < chunk_size`: an equal
overlap makes the loop step zero and raises `ValueError`; a larger overlap
makes the step negative, so the index range is empty and even non-empty
content yields no chunks; under the precondition, content with at least one
non-whitespace character yields at least one chunk; the shipped defaults
`chunk_size = 512`, `chunk_overlap = 50` satisfy the precondition. -/
theorem chunker_totality :
    (∀ st : Settings, ∀ content : PyStr, st.chunk_overlap = st.chunk_size →
        content ≠ [] →
        split_into_chunks st content = .error "range() arg 3 must not be zero") ∧
    (∀ st : Settings, ∀ content : PyStr, st.chunk_size < st.chunk_overlap →
        split_into_chunks st content = .ok []) ∧
    (∀ st : Settings, ∀ content : PyStr, st.chunk_overlap < st.chunk_size →
        (∃ c ∈ content, ¬c.isWhitespace) →
        ∃ chunks, split_into_chunks st content = .ok chunks ∧ chunks ≠ []) ∧
    defaultSettings.chunk_overlap < defaultSettings.chunk_size := by
  refine ⟨?_, ?_, ?_, by decide⟩
  · intro st content heq _
    have hr : pyRange (pySplit content).length
        ((st.chunk_size : Int) - (st.chunk_overlap : Int))
          = .error "range() arg 3 must not be zero" := by
      unfold pyRange
      rw [if_pos (by omega : (st.chunk_size : Int) - (st.chunk_overlap : Int) = 0)]
    simp only [split_into_chunks, hr]
  · intro st content hlt
    have hr : pyRange (pySplit content).length
        ((st.chunk_size : Int) - (st.chunk_overlap : Int)) = .ok [] := by
      unfold pyRange
      rw [if_neg (by omega : ¬((st.chunk_size : Int) - (st.chunk_overlap : Int) = 0)),
        if_pos (by omega : (st.chunk_size : Int) - (st.chunk_overlap : Int) < 0)]
    simp [split_into_chunks, hr]
  · intro st content h hc
    refine ⟨_, split_into_chunks_eq st content h, ?_⟩
    have hN : 0 < (pySplit content).length :=
      List.length_pos.mpr (pySplit_ne_nil hc)
    have hs : 0 < st.chunk_size - st.chunk_overlap := by omega
    intro hnil
    rw [List.map_eq_nil_iff] at hnil
    rw [rangeFrom, if_pos hs] at hnil
    have hfuel : 0 < (pySplit content).length - 0 := by omega
    rcases Nat.exists_eq_add_of_lt hfuel with ⟨fuel, hfuelEq⟩
    rw [show (pySplit content).length - 0 = fuel + 1 by omega] at hnil
    rw [rangeFromAux, if_pos (by omega)] at hnil
    exact absurd hnil (List.cons_ne_nil _ _)

/-- Witness for `chunker_totality`: concrete runs for each regime. -/
theorem chunker_totality_witness :
    split_into_chunks ⟨3, 3⟩ ("a b".data) = .error "range() arg 3 must not be zero" ∧
    split_into_chunks ⟨3, 4⟩ ("a b".data) = .ok [] ∧
    (∃ chunks, split_into_chunks ⟨3, 1⟩ ("a b".data) = .ok chunks ∧ chunks ≠ []) := by
  refine ⟨chunker_totality.1 ⟨3, 3⟩ ("a b".data) rfl (by decide),
    chunker_totality.2.1 ⟨3, 4⟩ ("a b".data) (by decide),
    chunker_totality.2.2.1 ⟨3, 1⟩ ("a b".data) (by decide) ⟨'a', by decide, by decide⟩⟩

/-! ## RAG service data model (app/services/rag_service.py) -/

/-- A citation record emitted by `_extract_citations`. -/
structure Citation where
  type : String
  reference : PyStr
deriving Repr, DecidableEq

/-- A retrieval result: a vector-search hit or a fallback pseudo-chunk.
The similarity score `0.5` is exactly representable, so `ℚ` is faithful. -/
structure RetrievalResult where
  document_id : String
  content : PyStr
  similarity : ℚ
deriving Repr, DecidableEq

/-- A `documents`-table row as read by the RAG service. -/
structure Doc where
  id : String
  filename : PyStr
  content : PyStr
deriving Repr, DecidableEq

/-! ## Citation extraction (`RAGService._extract_citations`) -/

/-- The literal part of the pattern `\[Document: ([^\]]+)\]`. -/
def citationLit : List Char := "[Document: ".data

/-- One attempt of the regex at the current position: the literal prefix,
then a non-empty run of non-`]` characters, then `]`. Returns the capture
and the text after the match. -/
def matchCitationAt (l : List Char) : Option (PyStr × List Char) :=
  if citationLit.isPrefixOf l then
    match (l.drop citationLit.length).takeWhile (fun c => c ≠ ']'),
        (l.drop citationLit.length).dropWhile (fun c => c ≠ ']') with
    | [], _ => none
    | c :: cap, ']' :: rest2 => some (c :: cap, rest2)
    | _ :: _, _ => none
  else none

theorem matchCitationAt_length {l : List Char} {cap rest : List Char}
    (h : matchCitationAt l = some (cap, rest)) : rest.length < l.length := by
  unfold matchCitationAt at h
  split at h
  · split at h
    · exact absurd h (by simp)
    · next heq =>
      have hdw : ((l.drop citationLit.length).dropWhile (fun c => decide (c ≠ ']'))).length
          ≤ (l.drop citationLit.length).length := (List.dropWhile_sublist _).length_le
      rw [heq] at hdw
      have h2 := Option.some.inj h
      have hrest : rest = _ := (congrArg Prod.snd h2).symm
      subst hrest
      simp only [List.length_cons, List.length_drop] at hdw
      have hl : 0 < citationLit.length := by decide
      omega
    · exact absurd h (by simp)
  · exact absurd h (by simp)

/-- Fuel-indexed scanner for `re.findall`: on a match, scanning resumes
after the closing bracket; otherwise it advances one character. The fuel
(initially the text length) dominates the number of steps. -/
def findCitationsAux : Nat → List Char → List PyStr
  | 0, _ => []
  | fuel + 1, l =>
    match l with
    | [] => []
    | c :: cs =>
      match matchCitationAt (c :: cs) with
      | some (cap, rest) => cap :: findCitationsAux fuel rest
      | none => findCitationsAux fuel cs

/-- `re.findall(r'\[Document: ([^\]]+)\]', text)`. -/
def findCitations (l : List Char) : List PyStr := findCitationsAux l.length l

theorem findCitationsAux_fuel :
    ∀ fuel l, l.length ≤ fuel → findCitationsAux fuel l = findCitations l := by
  intro fuel
  induction fuel using Nat.strong_induction_on with
  | _ fuel ih =>
    intro l hlen
    match fuel, l with
    | 0, l =>
      have : l = [] := List.length_eq_zero.mp (by omega)
      subst this
      rfl
    | fuel + 1, [] => rfl
    | fuel + 1, c :: cs =>
      show findCitationsAux (fuel + 1) (c :: cs) = findCitationsAux (c :: cs).length (c :: cs)
      simp only [List.length_cons, findCitationsAux]
      cases hm : matchCitationAt (c :: cs) with
      | some p =>
        obtain ⟨cap, rest⟩ := p
        have hr : rest.length < (c :: cs).length := matchCitationAt_length hm
        simp only [List.length_cons] at hr hlen
        dsimp only
        congr 1
        rw [ih fuel (by omega) rest (by omega),
          ih cs.length (by omega) rest (by omega)]
      | none =>
        dsimp only
        simp only [List.length_cons] at hlen
        rw [ih fuel (by omega) cs (by omega),
          ih cs.length (by omega) cs le_rfl]

theorem findCitations_cons_match {c : Char} {cs cap rest : List Char}
    (hm : matchCitationAt (c :: cs) = some (cap, rest)) :
    findCitations (c :: cs) = cap :: findCitations rest := by
  have hr : rest.length < (c :: cs).length := matchCitationAt_length hm
  show findCitationsAux (c :: cs).length (c :: cs) = _
  simp only [List.length_cons, findCitationsAux, hm]
  congr 1
  exact findCitationsAux_fuel cs.length rest (by simp at hr; omega)

theorem findCitations_cons_none {c : Char} {cs : List Char}
    (hm : matchCitationAt (c :: cs) = none) :
    findCitations (c :: cs) = findCitations cs := by
  show findCitationsAux (c :: cs).length (c :: cs) = _
  simp only [List.length_cons, findCitationsAux, hm]
  exact findCitationsAux_fuel cs.length cs le_rfl

/-- `RAGService._extract_citations`: one record per regex match, with the
capture trimmed. -/
def extract_citations (response_text : PyStr) : List Citation :=
  (findCitations response_text).map fun m => { type := "document", reference := pyStrip m }

theorem takeWhile_append_cons {α : Type} (p : α → Bool) (xs : List α) (y : α)
    (t : List α) (hall : ∀ x ∈ xs, p x = true) (hy : p y = false) :
    (xs ++ y :: t).takeWhile p = xs ∧ (xs ++ y :: t).dropWhile p = y :: t := by
  induction xs with
  | nil => simp [List.takeWhile_cons, List.dropWhile_cons, hy]
  | cons x xs ih =>
    have hx : p x = true := hall x (List.mem_cons_self x xs)
    have h' := ih fun z hz => hall z (List.mem_cons_of_mem x hz)
    simp [List.takeWhile_cons, List.dropWhile_cons, hx, h'.1, h'.2]

theorem matchCitationAt_pattern (cap post : List Char) (hcap : cap ≠ [])
    (hcapr : ']' ∉ cap) :
    matchCitationAt (citationLit ++ (cap ++ ']' :: post)) = some (cap, post) := by
  unfold matchCitationAt
  rw [if_pos (List.isPrefixOf_iff_prefix.mpr (List.prefix_append citationLit _)),
    List.drop_left]
  have hall : ∀ c ∈ cap, (fun c => decide (c ≠ ']')) c = true := by
    intro c hc
    simp only [decide_eq_true_eq]
    exact fun h => hcapr (h ▸ hc)
  have hy : (fun c => decide (c ≠ ']')) ']' = false := by simp
  obtain ⟨ht, hd⟩ := takeWhile_append_cons _ cap ']' post hall hy
  rw [ht, hd]
  cases cap with
  | nil => exact absurd rfl hcap
  | cons c cs => rfl

theorem matchCitationAt_not_lbracket {c : Char} {cs : List Char} (hc : c ≠ '[') :
    matchCitationAt (c :: cs) = none := by
  unfold matchCitationAt
  rw [if_neg]
  intro hpre
  obtain ⟨t, ht⟩ := List.isPrefixOf_iff_prefix.mp hpre
  have ht' : '[' :: ("Document: ".data ++ t) = c :: cs := ht
  exact hc (List.cons.inj ht').1.symm

theorem findCitations_occurrence (pre cap post : List Char)
    (hpre : '[' ∉ pre) (hcap : cap ≠ []) (hcapr : ']' ∉ cap) :
    findCitations (pre ++ (citationLit ++ (cap ++ ']' :: post)))
      = cap :: findCitations post := by
  induction pre with
  | nil =>
    simp only [List.nil_append]
    have hm := matchCitationAt_pattern cap post hcap hcapr
    have hsh : citationLit ++ (cap ++ ']' :: post)
        = '[' :: ("Document: ".data ++ (cap ++ ']' :: post)) := rfl
    rw [hsh] at hm ⊢
    exact findCitations_cons_match hm
  | cons x pre ih =>
    have hx : x ≠ '[' := fun h => hpre (h ▸ List.mem_cons_self x pre)
    rw [List.cons_append,
      findCitations_cons_none (matchCitationAt_not_lbracket hx)]
    exact ih fun h => hpre (List.mem_cons_of_mem x h)

/-- C9: citation extraction emits exactly one `{type: "document",
reference: trimmed capture}` record per occurrence of `[Document: <text>]`,
in order of occurrence: after a bracket-free prefix, an occurrence
contributes its record followed by the extraction of the remaining text;
and the spec's example yields exactly `report.pdf` then `notes.md`. -/
theorem extract_citations_spec :
    (∀ pre cap post : List Char, '[' ∉ pre → cap ≠ [] → ']' ∉ cap →
      extract_citations (pre ++ (citationLit ++ (cap ++ ']' :: post)))
        = { type := "document", reference := pyStrip cap }
            :: extract_citations post) ∧
    extract_citations ("See [Document: report.pdf] and [Document: notes.md].".data)
      = [{ type := "document", reference := "report.pdf".data },
         { type := "document", reference := "notes.md".data }] := by
  constructor
  · intro pre cap post hpre hcap hcapr
    unfold extract_citations
    rw [findCitations_occurrence pre cap post hpre hcap hcapr]
    rfl
  · rfl

/-- Witness for `extract_citations_spec`: one concrete occurrence after the
bracket-free prefix `"ok "`. -/
theorem extract_citations_spec_witness :
    '[' ∉ ("ok ".data) ∧ ("report.pdf".data ≠ ([] : List Char)) ∧
    ']' ∉ ("report.pdf".data) ∧
    extract_citations (("ok ".data) ++ (citationLit ++ ("report.pdf".data ++ ']' :: [])))
      = [{ type := "document", reference := pyStrip ("report.pdf".data) }] := by
  refine ⟨by decide, by decide, by decide, ?_⟩
  rw [extract_citations_spec.1 ("ok ".data) ("report.pdf".data) [] (by decide)
    (by decide) (by decide)]
  rfl

/-! ## LLM fallback (`RAGService._generate_llm_response`) -/

/-- The candidate list built in `RAGService.__init__`: the configured
primary model followed by the hard-coded fallbacks. -/
def model_fallbacks (llm_model : String) : List String :=
  [llm_model, "gemini-2.5-pro", "gemini-2.5-flash", "gemini-2.5-flash-lite"]

/-- `RAGService._generate_llm_response` from the point where the prompt is
built, parameterized by the outcome of one generation attempt per model
(`llm`): try each candidate in order; any exception moves on to the next
candidate; the first success returns the response text, its citations and
the model recorded as `current_model`; once every candidate has failed the
raised error wraps the last failure (`last_error` starts as Python `None`). -/
def generate_llm_response (llm : String → Except String PyStr) :
    List String → String → Except String (PyStr × List Citation × String)
  | [], last_error => .error ("All LLM models failed. Last error: " ++ last_error)
  | model :: rest, _ =>
    match llm model with
    | .ok text => .ok (text, extract_citations text, model)
    | .error e => generate_llm_response llm rest e

/-- The error of the last failing candidate (the value `last_error` holds
after the loop). -/
def lastFailure (llm : String → Except String PyStr) (models : List String)
    (last_error : String) : String :=
  models.foldl (fun acc m => match llm m with | .error e => e | .ok _ => acc)
    last_error

/-- C2: the answer generator walks the candidates in order; every exception
advances to the next candidate, so the terminal error is raised exactly
when all candidates fail, wrapping the last failure; the first success
returns immediately with that model recorded as the one used. -/
theorem llm_fallback_spec (llm : String → Except String PyStr) :
    (∀ models last_error, (∀ m ∈ models, ∃ e, llm m = .error e) →
      generate_llm_response llm models last_error
        = .error ("All LLM models failed. Last error: "
            ++ lastFailure llm models last_error)) ∧
    (∀ before m after last_error text,
      (∀ x ∈ before, ∃ e, llm x = .error e) → llm m = .ok text →
      generate_llm_response llm (before ++ m :: after) last_error
        = .ok (text, extract_citations text, m)) := by
  constructor
  · intro models
    induction models with
    | nil => intro last_error _; rfl
    | cons model rest ih =>
      intro last_error hall
      obtain ⟨e, he⟩ := hall model (List.mem_cons_self model rest)
      show (match llm model with
        | .ok text => Except.ok (text, extract_citations text, model)
        | .error e => generate_llm_response llm rest e)
          = .error ("All LLM models failed. Last error: "
              ++ lastFailure llm (model :: rest) last_error)
      rw [he]
      have hlast : lastFailure llm (model :: rest) last_error
          = lastFailure llm rest e := by
        unfold lastFailure
        simp only [List.foldl_cons, he]
      rw [hlast]
      exact ih e fun x hx => hall x (List.mem_cons_of_mem model hx)
  · intro before
    induction before with
    | nil =>
      intro m after last_error text _ hok
      show (match llm m with
        | .ok text => Except.ok (text, extract_citations text, m)
        | .error e => generate_llm_response llm after e)
          = .ok (text, extract_citations text, m)
      rw [hok]
    | cons x before ih =>
      intro m after last_error text hall hok
      obtain ⟨e, he⟩ := hall x (List.mem_cons_self x before)
      show (match llm x with
        | .ok text => Except.ok (text, extract_citations text, x)
        | .error e => generate_llm_response llm (before ++ m :: after) e)
          = .ok (text, extract_citations text, m)
      rw [he]
      exact ih m after e text (fun z hz => hall z (List.mem_cons_of_mem x hz)) hok

/-- Witness for `llm_fallback_spec`: a first failing model is skipped and
the succeeding second model is recorded; when both fail, the terminal error
wraps the second (last) failure. -/
theorem llm_fallback_spec_witness :
    generate_llm_response
        (fun n => if n = "m2" then .ok ("hi".data) else .error ("down " ++ n))
        ["m1", "m2"] "None"
      = .ok ("hi".data, extract_citations ("hi".data), "m2") ∧
    generate_llm_response (fun n => (.error ("down " ++ n) : Except String PyStr))
        ["m1", "m2"] "None"
      = .error "All LLM models failed. Last error: down m2" := by
  constructor
  · exact (llm_fallback_spec _).2 ["m1"] "m2" [] "None" ("hi".data)
      (by
        intro x hx
        simp only [List.mem_singleton] at hx
        subst hx
        exact ⟨"down " ++ "m1", rfl⟩)
      rfl
  · rw [(llm_fallback_spec _).1 ["m1", "m2"] "None" fun m _ => ⟨"down " ++ m, rfl⟩]
    rfl

/-! ## Fallback document search (`RAGService._fallback_document_search`) -/

/-- Python loop `for x in l: if p x: acc.append(f x)` as a fold. -/
theorem foldl_append_if {α β : Type} (p : α → Prop) [DecidablePred p] (f : α → β) :
    ∀ (l : List α) (acc : List β),
      l.foldl (fun acc x => if p x then acc ++ [f x] else acc) acc
        = acc ++ (l.filter fun x => decide (p x)).map f := by
  intro l
  induction l with
  | nil => intro acc; simp
  | cons x l ih =>
    intro acc
    by_cases hx : p x
    · simp only [List.foldl_cons, if_pos hx, ih, List.filter_cons,
        decide_eq_true_eq, hx, if_true, List.map_cons, List.append_assoc,
        List.singleton_append]
    · simp only [List.foldl_cons, if_neg hx, ih, List.filter_cons,
        decide_eq_true_eq, hx, if_false, List.map_cons]

/-- The pseudo-chunk dict built for one qualifying document. -/
def pseudoChunk (d : Doc) : RetrievalResult where
  document_id := d.id
  content := d.content.take 2000
  similarity := (1 : ℚ)/2

/-- `RAGService._fallback_document_search` applied to the notebook's
document rows: an optional selection filter (Python truthiness: `None` and
the empty list disable it), then one pseudo-chunk per document with
non-empty content longer than 100 characters, carrying the first 2000
characters and similarity `0.5`. -/
def fallback_document_search (docs : List Doc)
    (selected_document_ids : Option (List String)) : List RetrievalResult :=
  let filtered : List Doc :=
    match selected_document_ids with
    | some ids => if ids.isEmpty then docs else docs.filter fun d => ids.contains d.id
    | none => docs
  filtered.foldl
    (fun chunks d =>
      if d.content ≠ [] ∧ 100 < d.content.length then chunks ++ [pseudoChunk d]
      else chunks)
    []

/-- C7: with no selection the fallback synthesizes exactly one pseudo-chunk
per document whose content exceeds 100 characters (shorter documents are
excluded), each carrying the document id, at most the first 2000 characters
and similarity exactly `0.5`; at least one qualifying document makes the
result non-empty. -/
theorem fallback_search_spec (docs : List Doc) :
    fallback_document_search docs none
      = (docs.filter fun d => decide (100 < d.content.length)).map pseudoChunk ∧
    (∀ r ∈ fallback_document_search docs none,
      r.similarity = 1/2 ∧ r.content.length ≤ 2000) ∧
    ((∃ d ∈ docs, 100 < d.content.length) →
      fallback_document_search docs none ≠ []) := by
  have heq : fallback_document_search docs none
      = (docs.filter fun d => decide (100 < d.content.length)).map pseudoChunk := by
    show docs.foldl
        (fun chunks d =>
          if d.content ≠ [] ∧ 100 < d.content.length then chunks ++ [pseudoChunk d]
          else chunks) []
      = _
    rw [foldl_append_if _ _ docs []]
    simp only [List.nil_append]
    congr 1
    apply List.filter_congr
    intro d _
    by_cases h : 100 < d.content.length
    · have hne : ¬d.content = [] := by
        intro hnil
        rw [hnil] at h
        simp at h
      simp [h, hne]
    · simp [h]
  refine ⟨heq, ?_, ?_⟩
  · intro r hr
    rw [heq] at hr
    obtain ⟨d, -, rfl⟩ := List.mem_map.mp hr
    exact ⟨rfl, List.length_take_le 2000 d.content⟩
  · intro ⟨d, hd, hlen⟩
    rw [heq]
    intro hnil
    rw [List.map_eq_nil_iff, List.filter_eq_nil_iff] at hnil
    exact hnil d hd (by simpa using hlen)

/-- Witness for `fallback_search_spec`: one long document (282 characters)
and one short (9 characters) yield exactly one pseudo-chunk. -/
theorem fallback_search_spec_witness :
    (∃ d ∈ [Doc.mk "d1" ("a.txt".data) (List.replicate 282 'x'),
            Doc.mk "d2" ("b.txt".data) ("too short".data)],
      100 < d.content.length) ∧
    fallback_document_search
        [Doc.mk "d1" ("a.txt".data) (List.replicate 282 'x'),
         Doc.mk "d2" ("b.txt".data) ("too short".data)] none
      ≠ [] := by
  have hlen : (100 : Nat) < (List.replicate 282 'x').length := by
    rw [List.length_replicate]
    omega
  constructor
  · exact ⟨_, List.mem_cons_self _ _, hlen⟩
  · exact (fallback_search_spec _).2.2 ⟨_, List.mem_cons_self _ _, hlen⟩

/-! ## Context assembly (`RAGService._prepare_context`) -/

/-- The `"\n---\n"` block separator. -/
def contextSep : PyStr := "\n---\n".data

/-- Python `sep.join(parts)`. -/
def pyJoin (sep : PyStr) : List PyStr → PyStr
  | [] => []
  | [p] => p
  | p :: ps => p ++ sep ++ pyJoin sep ps

/-- `document_info.get(document_id, {}).get("filename", "Unknown Document")`. -/
def docName (document_info : List (String × PyStr)) (document_id : String) : PyStr :=
  match document_info.lookup document_id with
  | some filename => filename
  | none => "Unknown Document".data

/-- One context block: `f"[Document: {doc_name}]\n{content}\n"`. -/
def contextBlock (document_info : List (String × PyStr))
    (chunk : RetrievalResult) : PyStr :=
  "[Document: ".data ++ docName document_info chunk.document_id ++ "]\n".data
    ++ chunk.content ++ "\n".data

/-- `RAGService._prepare_context`: append one block per chunk to
`context_parts`, then `"\n---\n".join(...)`. -/
def prepare_context (chunks : List RetrievalResult)
    (document_info : List (String × PyStr)) : PyStr :=
  pyJoin contextSep
    (chunks.foldl (fun parts chunk => parts ++ [contextBlock document_info chunk]) [])

theorem foldl_append_map {α β : Type} (f : α → β) :
    ∀ (l : List α) (acc : List β),
      l.foldl (fun acc x => acc ++ [f x]) acc = acc ++ l.map f := by
  intro l
  induction l with
  | nil => intro acc; simp
  | cons x l ih =>
    intro acc
    simp only [List.foldl_cons, ih, List.map_cons, List.append_assoc,
      List.singleton_append]

/-- C8: the assembled context is one block per retrieval result, in input
order (none dropped, none re-ordered), each block a filename header plus the
chunk text, joined by the fixed separator; a result whose document id is
missing from the metadata map gets the `Unknown Document` placeholder and
the assembly still succeeds. -/
theorem prepare_context_spec (chunks : List RetrievalResult)
    (document_info : List (String × PyStr)) :
    prepare_context chunks document_info
      = pyJoin contextSep (chunks.map (contextBlock document_info)) ∧
    (chunks.map (contextBlock document_info)).length = chunks.length ∧
    (∀ chunk : RetrievalResult, document_info.lookup chunk.document_id = none →
      contextBlock document_info chunk
        = "[Document: Unknown Document]\n".data ++ chunk.content ++ "\n".data) := by
  refine ⟨?_, List.length_map _ _, ?_⟩
  · unfold prepare_context
    rw [foldl_append_map _ chunks []]
    rfl
  · intro chunk hmiss
    unfold contextBlock docName
    rw [hmiss]
    rfl

/-- Witness for `prepare_context_spec`: a chunk whose document id is absent
from the metadata map is rendered with the placeholder header. -/
theorem prepare_context_spec_witness :
    ([("known", "k.txt".data)] : List (String × PyStr)).lookup "ghost" = none ∧
    contextBlock [("known", "k.txt".data)] (RetrievalResult.mk "ghost" ("body".data) (1/2))
      = "[Document: Unknown Document]\n".data ++ "body".data ++ "\n".data := by
  refine ⟨rfl, ?_⟩
  exact (prepare_context_spec [] [("known", "k.txt".data)]).2.2
    (RetrievalResult.mk "ghost" ("body".data) (1/2)) rfl

/-! ## Embedding creation (`EmbeddingService.create_embeddings`)

External effects are explicit oracles: `uuids n` is the `n`-th `uuid.uuid4()`
draw of the call, `embedApi` the outcome of `genai.embed_content`, and
`insertOk i` whether the Supabase insert of chunk `i` returns data. -/

/-- A row of the `document_embeddings` table. -/
structure ChunkRecord where
  id : String
  embedding_id : String
  document_id : String
  chunk_index : Nat
  content : PyStr
  embedding : List ℚ
deriving Repr, DecidableEq

/-- `EmbeddingService._generate_embedding`: wraps any API exception in
`Failed to generate embedding`. -/
def generate_embedding (embedApi : PyStr → Except String (List ℚ))
    (text : PyStr) : Except String (List ℚ) :=
  match embedApi text with
  | .ok v => .ok v
  | .error e => .error ("Failed to generate embedding: " ++ e)

/-- The per-chunk loop of `create_embeddings` from chunk index `i`: embed
the chunk (an embedding exception stops the loop), insert the row (a failed
insert is only printed and the loop continues). Returns the rows actually
inserted and the pending exception, if any. -/
def processChunks (uuids : Nat → String) (embedApi : PyStr → Except String (List ℚ))
    (insertOk : Nat → Bool) (embedding_id document_id : String) :
    List PyStr → Nat → List ChunkRecord × Option String
  | [], _ => ([], none)
  | chunk :: rest, i =>
    match generate_embedding embedApi chunk with
    | .error e => ([], some e)
    | .ok emb =>
      let record : ChunkRecord :=
        { id := uuids (i + 1)
          embedding_id := embedding_id
          document_id := document_id
          chunk_index := i
          content := chunk
          embedding := emb }
      let tail := processChunks uuids embedApi insertOk embedding_id document_id
        rest (i + 1)
      ((if insertOk i then [record] else []) ++ tail.1, tail.2)

/-- `EmbeddingService.create_embeddings`: chunk the content, draw a fresh
`embedding_id` (`uuids 0`), run the per-chunk loop; any exception is
re-raised wrapped in `Failed to create embeddings`. Returns the table rows
written together with the returned `embedding_id` or the raised error. -/
def create_embeddings (uuids : Nat → String)
    (embedApi : PyStr → Except String (List ℚ)) (insertOk : Nat → Bool)
    (st : Settings) (document_id : String) (content : PyStr) :
    List ChunkRecord × Except String String :=
  match split_into_chunks st content with
  | .error e => ([], .error ("Failed to create embeddings: " ++ e))
  | .ok chunks =>
    match processChunks uuids embedApi insertOk (uuids 0) document_id chunks 0 with
    | (records, some e) => (records, .error ("Failed to create embeddings: " ++ e))
    | (records, none) => (records, .ok (uuids 0))

theorem processChunks_ok (uuids : Nat → String)
    (embedApi : PyStr → Except String (List ℚ)) (insertOk : Nat → Bool)
    (eid did : String) :
    ∀ (chunks : List PyStr) (i : Nat), (∀ ch ∈ chunks, ∃ v, embedApi ch = .ok v) →
      (processChunks uuids embedApi insertOk eid did chunks i).2 = none ∧
      (processChunks uuids embedApi insertOk eid did chunks i).1.map
          (fun r => r.chunk_index)
        = (List.range' i chunks.length).filter insertOk ∧
      ∀ r ∈ (processChunks uuids embedApi insertOk eid did chunks i).1,
        r.embedding_id = eid := by
  intro chunks
  induction chunks with
  | nil =>
    intro i _
    exact ⟨rfl, rfl, by intro r hr; exact absurd hr (List.not_mem_nil r)⟩
  | cons chunk rest ih =>
    intro i hall
    obtain ⟨v, hv⟩ := hall chunk (List.mem_cons_self chunk rest)
    obtain ⟨h2, h1, hmem⟩ := ih (i + 1) fun ch hch => hall ch (List.mem_cons_of_mem chunk hch)
    have hg : generate_embedding embedApi chunk = .ok v := by
      unfold generate_embedding
      rw [hv]
    simp only [processChunks, hg]
    refine ⟨h2, ?_, ?_⟩
    · rw [List.length_cons, List.map_append, h1, List.range'_succ, List.filter_cons]
      cases hins : insertOk i
      · simp
      · simp
    · intro r hr
      rcases List.mem_append.mp hr with hleft | hright
      · by_cases hins : insertOk i = true
        · simp [hins] at hleft
          subst hleft
          rfl
        · simp [hins] at hleft
      · exact hmem r hright

theorem processChunks_fail (uuids : Nat → String)
    (embedApi : PyStr → Except String (List ℚ)) (insertOk : Nat → Bool)
    (eid did : String) :
    ∀ (pre : List PyStr) (bad : PyStr) (rest : List PyStr) (i : Nat) (e : String),
      (∀ ch ∈ pre, ∃ v, embedApi ch = .ok v) → embedApi bad = .error e →
      (processChunks uuids embedApi insertOk eid did (pre ++ bad :: rest) i).2
          = some ("Failed to generate embedding: " ++ e) ∧
      (processChunks uuids embedApi insertOk eid did (pre ++ bad :: rest) i).1.map
          (fun r => r.chunk_index)
        = (List.range' i pre.length).filter insertOk ∧
      ∀ r ∈ (processChunks uuids embedApi insertOk eid did (pre ++ bad :: rest) i).1,
        r.embedding_id = eid := by
  intro pre
  induction pre with
  | nil =>
    intro bad rest i e _ hbad
    have hg : generate_embedding embedApi bad
        = .error ("Failed to generate embedding: " ++ e) := by
      unfold generate_embedding
      rw [hbad]
    have hred : processChunks uuids embedApi insertOk eid did ([] ++ bad :: rest) i
        = ([], some ("Failed to generate embedding: " ++ e)) := by
      simp only [List.nil_append, processChunks, hg]
    rw [hred]
    exact ⟨rfl, rfl, by intro r hr; exact absurd hr (List.not_mem_nil r)⟩
  | cons chunk pre ih =>
    intro bad rest i e hall hbad
    obtain ⟨v, hv⟩ := hall chunk (List.mem_cons_self chunk pre)
    obtain ⟨h2, h1, hmem⟩ :=
      ih bad rest (i + 1) e (fun ch hch => hall ch (List.mem_cons_of_mem chunk hch)) hbad
    have hg : generate_embedding embedApi chunk = .ok v := by
      unfold generate_embedding
      rw [hv]
    simp only [List.cons_append, processChunks, hg]
    refine ⟨h2, ?_, ?_⟩
    · simp only [List.append_eq]
      rw [List.length_cons, List.map_append, h1, List.range'_succ, List.filter_cons]
      cases hins : insertOk i
      · simp
      · simp
    · intro r hr
      simp only [List.append_eq] at hr
      rcases List.mem_append.mp hr with hleft | hright
      · by_cases hins : insertOk i = true
        · simp [hins] at hleft
          subst hleft
          rfl
        · simp [hins] at hleft
      · exact hmem r hright

/-- C5: on a fully successful run (every embedding and insert succeeds, and
`overlap < chunk_size`), `create_embeddings` on content chunking into `k`
chunks inserts exactly `k` rows, all carrying the one freshly drawn batch
id — which is also the returned value — with chunk indices exactly
`0..k-1` in document order. -/
theorem create_embeddings_success (uuids : Nat → String)
    (embedApi : PyStr → Except String (List ℚ)) (insertOk : Nat → Bool)
    (st : Settings) (did : String) (content : PyStr)
    (h : st.chunk_overlap < st.chunk_size)
    (hembed : ∀ t, ∃ v, embedApi t = .ok v)
    (hinsert : ∀ i, insertOk i = true) :
    ∃ chunks, split_into_chunks st content = .ok chunks ∧
      ∃ records,
        create_embeddings uuids embedApi insertOk st did content
          = (records, .ok (uuids 0)) ∧
        records.length = chunks.length ∧
        records.map (fun r => r.chunk_index) = List.range chunks.length ∧
        ∀ r ∈ records, r.embedding_id = uuids 0 := by
  obtain ⟨chunks, hch, -, -⟩ := chunk_count st content h
  refine ⟨chunks, hch, ?_⟩
  obtain ⟨h2, h1, hmem⟩ := processChunks_ok uuids embedApi insertOk (uuids 0) did
    chunks 0 fun ch _ => hembed ch
  rcases hp : processChunks uuids embedApi insertOk (uuids 0) did chunks 0 with ⟨records, err⟩
  rw [hp] at h2 h1 hmem
  simp only at h2 h1 hmem
  subst h2
  have hfilter : (List.range' 0 chunks.length).filter insertOk
      = List.range' 0 chunks.length :=
    List.filter_eq_self.mpr fun a _ => hinsert a
  refine ⟨records, ?_, ?_, ?_, hmem⟩
  · unfold create_embeddings
    rw [hch]
    dsimp only
    rw [hp]
  · have hl := congrArg List.length h1
    rw [List.length_map, hfilter, List.length_range'] at hl
    exact hl
  · rw [h1, hfilter, List.range_eq_range']

/-- Witness for `create_embeddings_success`: five words, chunk size 3,
overlap 1 give rows with indices `0, 1, 2` sharing the batch id. -/
theorem create_embeddings_success_witness :
    (⟨3, 1⟩ : Settings).chunk_overlap < (⟨3, 1⟩ : Settings).chunk_size ∧
    ∃ chunks, split_into_chunks ⟨3, 1⟩ ("a b c d e".data) = .ok chunks ∧
      ∃ records,
        create_embeddings (fun _ => "batch") (fun _ => .ok [0]) (fun _ => true)
            ⟨3, 1⟩ "doc1" ("a b c d e".data)
          = (records, .ok "batch") ∧
        records.length = chunks.length ∧
        records.map (fun r => r.chunk_index) = List.range chunks.length ∧
        ∀ r ∈ records, r.embedding_id = "batch" := by
  refine ⟨by decide, ?_⟩
  exact create_embeddings_success (fun _ => "batch") (fun _ => .ok [0])
    (fun _ => true) ⟨3, 1⟩ "doc1" ("a b c d e".data) (by decide)
    (fun t => ⟨[0], rfl⟩) (fun i => rfl)

/-- C6: a failed insert of one chunk row is only logged — the loop continues
and the call still returns the batch id, with exactly the rows whose insert
succeeded written — whereas a failure while generating one chunk's
embedding aborts the call, surfacing the wrapped embedding error, with the
rows inserted before the failure left in place and none written after it. -/
theorem create_embeddings_error_handling (uuids : Nat → String)
    (embedApi : PyStr → Except String (List ℚ)) (insertOk : Nat → Bool)
    (st : Settings) (did : String) (content : PyStr) :
    ((∀ t, ∃ v, embedApi t = .ok v) →
      ∀ chunks, split_into_chunks st content = .ok chunks →
      ∃ records,
        create_embeddings uuids embedApi insertOk st did content
          = (records, .ok (uuids 0)) ∧
        records.map (fun r => r.chunk_index)
          = (List.range chunks.length).filter insertOk) ∧
    (∀ (pre : List PyStr) (bad : PyStr) (rest : List PyStr) (e : String),
      split_into_chunks st content = .ok (pre ++ bad :: rest) →
      (∀ ch ∈ pre, ∃ v, embedApi ch = .ok v) → embedApi bad = .error e →
      ∃ records,
        create_embeddings uuids embedApi insertOk st did content
          = (records,
              .error ("Failed to create embeddings: "
                ++ ("Failed to generate embedding: " ++ e))) ∧
        records.map (fun r => r.chunk_index)
          = (List.range pre.length).filter insertOk ∧
        ∀ r ∈ records, r.embedding_id = uuids 0) := by
  constructor
  · intro hembed chunks hch
    obtain ⟨h2, h1, -⟩ := processChunks_ok uuids embedApi insertOk (uuids 0) did
      chunks 0 fun ch _ => hembed ch
    rcases hp : processChunks uuids embedApi insertOk (uuids 0) did chunks 0
      with ⟨records, err⟩
    rw [hp] at h2 h1
    simp only at h2 h1
    subst h2
    refine ⟨records, ?_, ?_⟩
    · unfold create_embeddings
      rw [hch]
      dsimp only
      rw [hp]
    · rw [h1, List.range_eq_range']
  · intro pre bad rest e hch hpre hbad
    obtain ⟨h2, h1, hmem⟩ :=
      processChunks_fail uuids embedApi insertOk (uuids 0) did pre bad rest 0 e
        hpre hbad
    rcases hp : processChunks uuids embedApi insertOk (uuids 0) did
        (pre ++ bad :: rest) 0 with ⟨records, err⟩
    rw [hp] at h2 h1 hmem
    simp only at h2 h1 hmem
    subst h2
    refine ⟨records, ?_, ?_, hmem⟩
    · unfold create_embeddings
      rw [hch]
      dsimp only
      rw [hp]
    · rw [h1, List.range_eq_range']

/-- Witness for `create_embeddings_error_handling`: dropping the insert of
chunk 1 leaves rows `0, 2` yet the call succeeds; an embedding failure on
the second chunk leaves only chunk 0's row and raises the wrapped error. -/
theorem create_embeddings_error_handling_witness :
    (∃ records,
      create_embeddings (fun _ => "batch") (fun _ => .ok [0])
          (fun i => decide (i ≠ 1)) ⟨3, 1⟩ "doc1" ("a b c d e".data)
        = (records, .ok "batch") ∧
      records.map (fun r => r.chunk_index)
        = (List.range 3).filter fun i => decide (i ≠ 1)) ∧
    (∃ records,
      create_embeddings (fun _ => "batch")
          (fun t => if t = "c d e".data then .error "boom" else .ok [0])
          (fun _ => true) ⟨3, 1⟩ "doc1" ("a b c d e".data)
        = (records,
            .error ("Failed to create embeddings: "
              ++ ("Failed to generate embedding: " ++ "boom"))) ∧
      records.map (fun r => r.chunk_index) = (List.range 1).filter (fun _ => true) ∧
      ∀ r ∈ records, r.embedding_id = "batch") := by
  constructor
  · exact (create_embeddings_error_handling (fun _ => "batch") (fun _ => .ok [0])
      (fun i => decide (i ≠ 1)) ⟨3, 1⟩ "doc1" ("a b c d e".data)).1
      (fun t => ⟨[0], rfl⟩) ["a b c".data, "c d e".data, "e".data] rfl
  · refine (create_embeddings_error_handling (fun _ => "batch")
      (fun t => if t = "c d e".data then .error "boom" else .ok [0])
      (fun _ => true) ⟨3, 1⟩ "doc1" ("a b c d e".data)).2
      ["a b c".data] ("c d e".data) ["e".data] "boom" rfl ?_ rfl
    intro ch hch
    simp only [List.mem_singleton] at hch
    subst hch
    exact ⟨[0], rfl⟩

/-! ## The orchestrator's retrieval call (C1)

`RAGService.generate_response` invokes
`search_similar(query=..., notebook_id=..., user_id=..., limit=5,
selected_document_ids=...)`, but `EmbeddingService.search_similar` declares
only `(self, query, notebook_id, user_id, limit)` and no `**kwargs`, so the
Python call binding itself is modelled. -/

/-- Binding the keyword arguments of a Python call against a `def` with no
`**kwargs`: a keyword that names no declared parameter raises
`TypeError: got an unexpected keyword argument`. -/
def bindKwargs (params : List String) (kwargs : List String) : Except String Unit :=
  match kwargs.find? fun k => !(params.contains k) with
  | some k => .error ("got an unexpected keyword argument " ++ k)
  | none => .ok ()

/-- The parameter list of `EmbeddingService.search_similar`
(embedding_service.py line 59). -/
def search_similar_params : List String :=
  ["self", "query", "notebook_id", "user_id", "limit"]

/-- The keywords `RAGService.generate_response` passes to `search_similar`
(rag_service.py lines 36-42). -/
def generate_response_search_kwargs : List String :=
  ["query", "notebook_id", "user_id", "limit", "selected_document_ids"]

/-- C1 (code bug): the orchestrator passes `selected_document_ids` on every
request, but `search_similar` declares no such parameter, so the binding
raises a `TypeError` instead of returning normally — the similarity query is
never restricted to the selected documents. -/
theorem search_similar_rejects_selected_document_ids :
    bindKwargs search_similar_params generate_response_search_kwargs
      = .error "got an unexpected keyword argument selected_document_ids" := by
  rfl

end NotebookAI
